import Mathlib

/-!
Shallow embedding of the practice-scheduling engine of `src/game.rs`
(yu-practice-game): the data model (`Radical`, `GameConfig`, `GameState`),
the answer evaluator (`check_input_core` / `check_input`), the scheduler
(`next_radical`), the progress reporter (`progress` / `is_game_over`) and
the Keyboard ordering policy from `GameState::new`.

Modelling conventions:
* Rust `String` is modelled as `List Char` (`Str`); UTF-8 byte-wise
  lexicographic order on valid strings coincides with code-point order,
  so `String::cmp` is modelled by code-point lexicographic `strCmp`.
* `str::trim` is modelled by `trimChars` (drop whitespace from both ends)
  and `str::to_lowercase` / `to_uppercase` by per-character mapping.
* Rust `usize` counters are modelled as `Nat`; `saturating_sub 1` is
  Nat truncated subtraction, and `usize::MAX` is `2 ^ 64 - 1`.
* `HashMap<String, usize>` is modelled as an association list
  (`List (Str × Nat)`): `find?`-based lookup, first-match in-place update
  (`mapModify`, the model of `entry(..).and_modify(..)`), and value sum.
* The two ambient randomness draws of `next_radical` (the 3..=6 recency
  interval and the `Random`-order shuffle) are passed in as explicit
  parameters `random_interval` and `perm`.
* The formatted feedback string (which interpolates an `f64` per-mille
  value) is modelled by the structured `Feedback` type that records the
  format arguments; the per-mille value is kept as the exact pair
  (numerator `frequency * 1000`, denominator `total`).
-/

namespace YuPractice

/-- Rust `String`, modelled as its sequence of Unicode scalar values. -/
abbrev Str := List Char

/-- Model of `str::to_lowercase` (per-character). -/
def strToLower (s : Str) : Str := s.map Char.toLower

/-- Model of `str::to_uppercase` (per-character). -/
def strToUpper (s : Str) : Str := s.map Char.toUpper

/-- Model of `str::trim`: drop whitespace from both ends. -/
def trimChars (s : Str) : Str :=
  ((s.dropWhile Char.isWhitespace).reverse.dropWhile Char.isWhitespace).reverse

/-- Model of Rust `String::cmp`: lexicographic comparison by code point
(equal to UTF-8 byte-wise comparison). -/
def strCmp : Str → Str → Ordering
  | [], [] => .eq
  | [], _ :: _ => .lt
  | _ :: _, [] => .gt
  | a :: as, b :: bs =>
    match compare a.toNat b.toNat with
    | .lt => .lt
    | .gt => .gt
    | .eq => strCmp as bs

/-- `struct Radical` of `game.rs`. -/
structure Radical where
  code : Str
  text : Str
  frequency : Nat
  big_code : Str
  small_code : Str
deriving DecidableEq, Repr

/-- Placeholder radical used to totalise the (in Rust always in-bounds)
direct indexing `self.radicals[i]`. -/
def dummyRadical : Radical := ⟨[], [], 0, [], []⟩

/-- `enum PracticeMode` of `game.rs`. -/
inductive PracticeMode where
  | BigCode
  | DualCode
deriving DecidableEq, Repr

/-- `enum PracticeOrder` of `game.rs`. -/
inductive PracticeOrder where
  | Alphabetical
  | Frequency
  | Keyboard
  | Random
deriving DecidableEq, Repr

/-- The fields of `struct GameConfig` that the scheduling core reads
(file paths and UI mode are I/O concerns outside the core). -/
structure GameConfig where
  penalty : Nat
  min_practice_count : Nat
  practice_mode : PracticeMode
  order : PracticeOrder
deriving DecidableEq, Repr

/-- Structured model of the evaluator's feedback strings: the two fixed
messages and the format arguments of the result message (status, text,
uppercased big code, lowercased small code, frequency count, exact
per-mille fraction, rank). -/
inductive Feedback where
  | emptyInput
  | noRadicals
  | result (is_correct : Bool) (text : Str) (bigUpper : Str) (smallLower : Str)
      (count : Nat) (permilleNum : Nat) (permilleDen : Nat) (rank : Nat)
deriving DecidableEq, Repr

/-- Association-list model of `HashMap<String, usize>` lookup (`get`). -/
def mapGet (m : List (Str × Nat)) (k : Str) : Option Nat :=
  (m.find? (fun p => p.1 == k)).map (·.2)

/-- Association-list model of `entry(k).and_modify(f)`: update the first
entry with key `k` in place, do nothing when the key is absent. -/
def mapModify : List (Str × Nat) → Str → (Nat → Nat) → List (Str × Nat)
  | [], _, _ => []
  | (k', v) :: rest, k, f =>
    if k' = k then (k', f v) :: rest else (k', v) :: mapModify rest k f

/-- `struct GameState` of `game.rs`. -/
structure GameState where
  radicals : List Radical
  current_radical : Nat
  remaining_practice : List (Str × Nat)
  correct_count : Nat
  wrong_count : Nat
  total_practice : Nat
  last_error : Option Feedback
  recent_radicals : List Str
  last_big_code : Option Str
deriving DecidableEq, Repr

/-- The duplicated recent-history push of `check_input` / `next_radical`:
`insert(0, t)` followed by `pop()` (drop the last element) when the
length exceeds 6. -/
def pushRecent (recent : List Str) (t : Str) : List Str :=
  let recent := t :: recent
  if recent.length > 6 then recent.dropLast else recent

/-- `GameState::get_frequency_stats`: the current radical's frequency, the
per-mille share of the total (as the exact pair `(freq * 1000, total)`,
`(0, 1)` when the total is 0), and the 1-based rank in the
frequency-descending stable sort of the catalog (0 when not found). -/
def get_frequency_stats (s : GameState) (radical : Radical) : Nat × (Nat × Nat) × Nat :=
  let total := (s.radicals.map (·.frequency)).sum
  let percentage := if total > 0 then (radical.frequency * 1000, total) else (0, 1)
  let sorted := s.radicals.mergeSort (fun a b => decide (b.frequency ≤ a.frequency))
  let rank := ((sorted.findIdx? (fun r => r.text == radical.text)).map (· + 1)).getD 0
  (radical.frequency, percentage, rank)

/-- The case-insensitive answer comparison of `check_input_core`:
`BigCode` compares against the radical's `big_code`, `DualCode` against
the full `code`. -/
def matchesRadical (config : GameConfig) (radical : Radical) (input_lower : Str) : Bool :=
  match config.practice_mode with
  | .BigCode => input_lower == strToLower radical.big_code
  | .DualCode => input_lower == strToLower radical.code

/-- `GameState::check_input_core`: pure evaluation of one input. Empty
catalog and empty (after trim) input short-circuit with fixed messages;
`current_radical` is clamped to the last valid index; otherwise the
trimmed, lowercased input is compared per practice mode and the result
message is assembled from the frequency statistics. -/
def check_input_core (s : GameState) (input : Str) (config : GameConfig) :
    Bool × Option Feedback :=
  if s.radicals.isEmpty then
    (false, some .noRadicals)
  else
    let current_idx := min s.current_radical (s.radicals.length - 1)
    let radical := s.radicals.getD current_idx dummyRadical
    let input := trimChars input
    if input.isEmpty then
      (false, some .emptyInput)
    else
      let is_correct := matchesRadical config radical (strToLower input)
      let stats := get_frequency_stats s radical
      (is_correct,
        some (.result is_correct radical.text (strToUpper radical.big_code)
          (strToLower radical.small_code) stats.1 stats.2.1.1 stats.2.1.2 stats.2.2))

/-- `GameState::check_input`: trims the input (empty input only sets the
fixed message), evaluates via `check_input_core`, stores the message,
and — only when `current_radical` is in range — records the big code,
pushes the text onto the recent history, and updates the counters
(correct: `correct_count + 1` and saturating decrement; wrong:
`wrong_count + 1` and `+ penalty`; both: `total_practice + 1`). -/
def check_input (s : GameState) (input : Str) (config : GameConfig) :
    Bool × GameState :=
  let inp := trimChars input
  if inp.isEmpty then
    (false, { s with last_error := some Feedback.emptyInput })
  else
    let res := check_input_core s inp config
    match s.radicals[s.current_radical]? with
    | some radical =>
      let s1 := { s with
        last_error := res.2,
        last_big_code := some radical.big_code,
        recent_radicals := pushRecent s.recent_radicals radical.text }
      let s2 :=
        if res.1 then
          { s1 with
            correct_count := s1.correct_count + 1,
            remaining_practice := mapModify s1.remaining_practice radical.text (fun c => c - 1),
            total_practice := s1.total_practice + 1 }
        else
          { s1 with
            wrong_count := s1.wrong_count + 1,
            remaining_practice :=
              mapModify s1.remaining_practice radical.text (fun c => c + config.penalty),
            total_practice := s1.total_practice + 1 }
      (res.1, s2)
    | none => (res.1, { s with last_error := res.2 })

/-- `remaining_practice.get(&text).map_or(false, |&c| c > 0)`. -/
def hasRemaining (s : GameState) (text : Str) : Bool :=
  match mapGet s.remaining_practice text with
  | some c => decide (0 < c)
  | none => false

/-- The retain predicate of `next_radical` step 3: remaining work and not
among the most recent `k` history entries. -/
def retainPred (s : GameState) (k : Nat) (i : Nat) : Bool :=
  match s.radicals[i]? with
  | some radical =>
    hasRemaining s radical.text &&
      !((s.recent_radicals.take k).any (fun r => r == radical.text))
  | none => false

/-- The relaxed filter of `next_radical` step 4: only remaining work. -/
def relaxedPred (s : GameState) (i : Nat) : Bool :=
  match s.radicals[i]? with
  | some radical => hasRemaining s radical.text
  | none => false

/-- The order-shaped base candidate index list of `next_radical`
(`Alphabetical` / `Keyboard` reuse catalog order, `Frequency` re-derives a
stable frequency-descending index sort, `Random` uses the per-call
shuffle, passed in as `perm`). -/
def baseCandidates (s : GameState) (config : GameConfig) (perm : List Nat) :
    List Nat :=
  match config.order with
  | .Alphabetical => List.range s.radicals.length
  | .Frequency =>
    (List.range s.radicals.length).mergeSort (fun a b =>
      decide ((s.radicals.getD b dummyRadical).frequency ≤
        (s.radicals.getD a dummyRadical).frequency))
  | .Keyboard => List.range s.radicals.length
  | .Random => perm

/-- The candidate list of `next_radical` after filtering: the base list
filtered by `retainPred`, relaxed to `relaxedPred` over the full index
range when that filter is empty. -/
def nextCandidates (s : GameState) (config : GameConfig) (random_interval : Nat)
    (perm : List Nat) : List Nat :=
  let cands := (baseCandidates s config perm).filter (retainPred s random_interval)
  if cands.isEmpty then (List.range s.radicals.length).filter (relaxedPred s)
  else cands

/-- `GameState::next_radical`. The ambient randomness is explicit:
`random_interval` is the `3..=6` draw and `perm` is the shuffled index
list used when the order mode is `Random`. Builds the order-shaped
candidate list, filters (relaxing when empty), and selects the first
surviving index (pushing its text onto the recent history). -/
def next_radical (s : GameState) (config : GameConfig) (random_interval : Nat)
    (perm : List Nat) : Bool × GameState :=
  if s.radicals.isEmpty then
    (false, s)
  else
    match (nextCandidates s config random_interval perm).head? with
    | some next_idx =>
      match s.radicals[next_idx]? with
      | some radical =>
        (true, { s with
          recent_radicals := pushRecent s.recent_radicals radical.text,
          current_radical := next_idx })
      | none => (true, { s with current_radical := next_idx })
    | none => (false, s)

/-- `GameState::is_game_over`: all remaining counters are 0. -/
def is_game_over (s : GameState) : Bool :=
  s.remaining_practice.all (fun p => p.2 == 0)

/-- `GameState::progress`: `(completed, total)` with
`total = sum of remaining + correct + wrong` and
`completed = correct + wrong`. -/
def progress (s : GameState) : Nat × Nat :=
  let total := (s.remaining_practice.map (·.2)).sum + s.correct_count + s.wrong_count
  let completed := s.correct_count + s.wrong_count
  (completed, total)

/-- The fixed row-major keyboard sequence of the Keyboard ordering. -/
def keyboard_order : Str := "asdfghjklqwertyuiopzxcvbnm".toList

/-- `usize::MAX`, the sentinel returned by `find(..).unwrap_or(usize::MAX)`. -/
def USIZE_MAX : Nat := 2 ^ 64 - 1

/-- Position of the lowercased first character of a code within
`keyboard_order` (`usize::MAX` when absent or the code is empty; an empty
code yields `char::default()`, i.e. `'\0'`). -/
def firstCharKeyPos (code : Str) : Nat :=
  let first := code.headD (Char.ofNat 0)
  (keyboard_order.findIdx? (fun k => k == first.toLower)).getD USIZE_MAX

/-- The Keyboard comparator of `GameState::new`: first-character keyboard
positions, ties broken by full lexicographic code comparison. -/
def keyboardCmp (a b : Radical) : Ordering :=
  let a_pos := firstCharKeyPos a.code
  let b_pos := firstCharKeyPos b.code
  if a_pos ≠ b_pos then compare a_pos b_pos else strCmp a.code b.code

/-- The Keyboard branch of the ordering policy in `GameState::new`:
stable sort by `keyboardCmp`. -/
def sortKeyboard (radicals : List Radical) : List Radical :=
  radicals.mergeSort (fun a b => keyboardCmp a b != Ordering.gt)

/-- One scheduler-state operation: an evaluator call or an advance call
(with its randomness made explicit). -/
inductive GameOp where
  | check (input : Str) (config : GameConfig)
  | advance (config : GameConfig) (random_interval : Nat) (perm : List Nat)

/-- Apply one operation to the state. -/
def applyOp (s : GameState) : GameOp → GameState
  | .check input config => (check_input s input config).2
  | .advance config k perm => (next_radical s config k perm).2

/-- Run a sequence of operations. -/
def runOps (s : GameState) (ops : List GameOp) : GameState :=
  ops.foldl applyOp s

/-- The ordering relation the spec describes for the Keyboard policy:
earlier keyboard position of the lowercased first code character first,
ties broken by full lexicographic comparison of the code strings. -/
def keyboardSpecLe (a b : Radical) : Prop :=
  firstCharKeyPos a.code < firstCharKeyPos b.code ∨
    (firstCharKeyPos a.code = firstCharKeyPos b.code ∧
      strCmp a.code b.code ≠ .gt)

/-! ### Concrete example data (used by witnesses and counterexamples) -/

/-- The spec's example radical `{code:"ab", text:"甲", frequency:10}`. -/
def rGiap : Radical := ⟨"ab".toList, "甲".toList, 10, "a".toList, "b".toList⟩

/-- The spec's example radical `{code:"cd", text:"乙", frequency:5}`. -/
def rYi : Radical := ⟨"cd".toList, "乙".toList, 5, "c".toList, "d".toList⟩

/-- A concrete configuration: penalty 4, minimum 2, dual code, alphabetical. -/
def cfgAlpha : GameConfig := ⟨4, 2, .DualCode, .Alphabetical⟩

/-- A concrete fresh session state over the two example radicals. -/
def sExample : GameState :=
  ⟨[rGiap, rYi], 0, [(rGiap.text, 2), (rYi.text, 2)], 0, 0, 0, none, [], none⟩

/-- A concrete state with an empty catalog. -/
def sEmpty : GameState := ⟨[], 0, [], 0, 0, 0, none, [], none⟩

/-- A concrete state whose `current_radical` is out of range. -/
def sOut : GameState := { sExample with current_radical := 5 }

/-- A concrete radical whose code starts outside the keyboard sequence. -/
def rOutside : Radical := ⟨"1x".toList, "外".toList, 0, "1".toList, "x".toList⟩

/-! ### Helper lemmas -/

theorem dropWhile_idem (p : α → Bool) (l : List α) :
    (l.dropWhile p).dropWhile p = l.dropWhile p := by
  induction l with
  | nil => simp
  | cons a t ih =>
    by_cases h : p a
    · simp [List.dropWhile_cons, h, ih]
    · simp [List.dropWhile_cons, h]

theorem head?_dropWhile (p : α → Bool) (l : List α) {a : α}
    (h : (l.dropWhile p).head? = some a) : p a = false := by
  induction l with
  | nil => simp at h
  | cons b t ih =>
    by_cases hb : p b
    · rw [List.dropWhile_cons_of_pos hb] at h
      exact ih h
    · rw [List.dropWhile_cons_of_neg hb] at h
      simp at h
      rw [← h]
      simp [hb]

theorem dropWhile_eq_self_of_head? (p : α → Bool) (l : List α)
    (h : ∀ a, l.head? = some a → p a = false) : l.dropWhile p = l := by
  cases l with
  | nil => simp
  | cons a t =>
    have := h a (by simp)
    simp [List.dropWhile_cons, this]

theorem getLast?_dropWhile (p : α → Bool) (l : List α)
    (h : l.dropWhile p ≠ []) : (l.dropWhile p).getLast? = l.getLast? := by
  induction l with
  | nil => simp at h
  | cons a t ih =>
    by_cases ha : p a
    · rw [List.dropWhile_cons_of_pos ha] at h ⊢
      have ht : t ≠ [] := by
        intro he; rw [he] at h; simp at h
      cases t with
      | nil => exact absurd rfl ht
      | cons b u => rw [ih h, List.getLast?_cons_cons]
    · rw [List.dropWhile_cons_of_neg ha]

theorem trimChars_idem (s : Str) : trimChars (trimChars s) = trimChars s := by
  unfold trimChars
  set p := Char.isWhitespace with hp
  set A := s.dropWhile p with hA
  set B := A.reverse.dropWhile p with hB
  by_cases hBnil : B = []
  · simp [hBnil]
  · have h1 : B.reverse.dropWhile p = B.reverse := by
      apply dropWhile_eq_self_of_head? p B.reverse
      intro a hrev
      rw [List.head?_reverse] at hrev
      rw [getLast?_dropWhile p A.reverse hBnil, List.getLast?_reverse] at hrev
      exact head?_dropWhile p s hrev
    rw [h1, List.reverse_reverse, hB, dropWhile_idem]

theorem trimChars_not_isEmpty {input : Str} (h : trimChars input ≠ []) :
    (trimChars input).isEmpty = false := by
  simp [h]

theorem mapGet_cons_hit {k' k : Str} {v : Nat} {rest : List (Str × Nat)}
    (h : (k' == k) = true) : mapGet ((k', v) :: rest) k = some v := by
  simp [mapGet, List.find?, h]

theorem mapGet_cons_miss {k' k : Str} {v : Nat} {rest : List (Str × Nat)}
    (h : (k' == k) = false) : mapGet ((k', v) :: rest) k = mapGet rest k := by
  simp [mapGet, List.find?, h]

theorem mapGet_mapModify_self (m : List (Str × Nat)) (k : Str) (f : Nat → Nat)
    {c : Nat} (h : mapGet m k = some c) :
    mapGet (mapModify m k f) k = some (f c) := by
  induction m with
  | nil => simp [mapGet] at h
  | cons p rest ih =>
    obtain ⟨k', v⟩ := p
    by_cases hk : k' = k
    · have hbeq : (k' == k) = true := by simp [hk]
      rw [mapGet_cons_hit hbeq] at h
      have hv : v = c := Option.some.inj h
      subst hv
      simp only [mapModify, hk, if_pos]
      rw [mapGet_cons_hit (show (k == k) = true by simp)]
    · have hbeq : (k' == k) = false := by simp [hk]
      rw [mapGet_cons_miss hbeq] at h
      simp only [mapModify, hk, if_neg, ite_false]
      rw [mapGet_cons_miss hbeq]
      exact ih h

theorem sum_mapModify (m : List (Str × Nat)) (k : Str) (f : Nat → Nat)
    {c : Nat} (h : mapGet m k = some c) :
    ((mapModify m k f).map (·.2)).sum + c = (m.map (·.2)).sum + f c := by
  induction m with
  | nil => simp [mapGet] at h
  | cons p rest ih =>
    obtain ⟨k', v⟩ := p
    by_cases hk : k' = k
    · have hbeq : (k' == k) = true := by simp [hk]
      rw [mapGet_cons_hit hbeq] at h
      have hv : v = c := Option.some.inj h
      subst hv
      simp only [mapModify, hk, if_pos, List.map_cons, List.sum_cons]
      omega
    · have hbeq : (k' == k) = false := by simp [hk]
      rw [mapGet_cons_miss hbeq] at h
      have := ih h
      simp only [mapModify, hk, if_neg, ite_false, List.map_cons, List.sum_cons]
      omega

theorem length_pushRecent_le {recent : List Str} (t : Str)
    (h : recent.length ≤ 6) : (pushRecent recent t).length ≤ 6 := by
  simp only [pushRecent]
  split
  · simp only [List.length_dropLast, List.length_cons]
    omega
  · next hlen =>
    simp only [List.length_cons] at hlen ⊢
    omega

theorem check_input_core_fst {s : GameState} {r : Radical} {input : Str}
    (config : GameConfig)
    (h_r : s.radicals[s.current_radical]? = some r)
    (h_inp : trimChars input ≠ []) :
    (check_input_core s (trimChars input) config).1 =
      matchesRadical config r (strToLower (trimChars input)) := by
  have hlt : s.current_radical < s.radicals.length := by
    rcases List.getElem?_eq_some_iff.mp h_r with ⟨h, _⟩
    exact h
  have hne : s.radicals.isEmpty = false := by
    rw [List.isEmpty_eq_false]
    intro h0
    rw [h0] at hlt
    simp at hlt
  have hmin : min s.current_radical (s.radicals.length - 1) = s.current_radical := by
    omega
  have hgetD : s.radicals.getD s.current_radical dummyRadical = r := by
    simp [List.getD_eq_getElem?_getD, h_r]
  have h1 : (trimChars input).isEmpty = false := trimChars_not_isEmpty h_inp
  simp only [check_input_core, hne, Bool.false_eq_true, if_false, hmin, hgetD,
    trimChars_idem, h1]

/-- Full characterization of `check_input` when the current index is in
range and the trimmed input is non-empty. -/
theorem check_input_inRange {s : GameState} {r : Radical} {input : Str}
    (config : GameConfig)
    (h_r : s.radicals[s.current_radical]? = some r)
    (h_inp : trimChars input ≠ []) :
    check_input s input config =
      (matchesRadical config r (strToLower (trimChars input)),
       if matchesRadical config r (strToLower (trimChars input)) then
         { s with
           last_error := (check_input_core s (trimChars input) config).2,
           last_big_code := some r.big_code,
           recent_radicals := pushRecent s.recent_radicals r.text,
           correct_count := s.correct_count + 1,
           remaining_practice := mapModify s.remaining_practice r.text (fun c => c - 1),
           total_practice := s.total_practice + 1 }
       else
         { s with
           last_error := (check_input_core s (trimChars input) config).2,
           last_big_code := some r.big_code,
           recent_radicals := pushRecent s.recent_radicals r.text,
           wrong_count := s.wrong_count + 1,
           remaining_practice :=
             mapModify s.remaining_practice r.text (fun c => c + config.penalty),
           total_practice := s.total_practice + 1 }) := by
  have h1 : (trimChars input).isEmpty = false := trimChars_not_isEmpty h_inp
  have hfst := check_input_core_fst config h_r h_inp
  simp only [check_input, h1, Bool.false_eq_true, if_false, h_r, hfst]

/-- C3: on a correct, non-empty (after trim) answer with in-range
`current_index`, `check_input` returns `true`, increments `correct_count`
and `total_practice` by 1, leaves `wrong_count` unchanged, and decrements
the current radical's `remaining_practice` by 1 with Nat truncated
subtraction, the model of the saturating `saturating_sub(1)`; counters are
`Nat` (the model of `usize`), so no counter can go negative. -/
theorem claim_C3_correct_answer (s : GameState) (input : Str) (config : GameConfig)
    (r : Radical) (c : Nat)
    (h_r : s.radicals[s.current_radical]? = some r)
    (h_inp : trimChars input ≠ [])
    (h_c : mapGet s.remaining_practice r.text = some c)
    (h_m : matchesRadical config r (strToLower (trimChars input)) = true) :
    (check_input s input config).1 = true ∧
    (check_input s input config).2.correct_count = s.correct_count + 1 ∧
    (check_input s input config).2.total_practice = s.total_practice + 1 ∧
    (check_input s input config).2.wrong_count = s.wrong_count ∧
    mapGet (check_input s input config).2.remaining_practice r.text = some (c - 1) := by
  rw [check_input_inRange config h_r h_inp]
  simp only [h_m, if_pos]
  refine ⟨trivial, trivial, trivial, trivial, ?_⟩
  exact mapGet_mapModify_self _ _ _ h_c

/-- Witness for C3: a concrete correct answer (`" AB "` for code `ab`,
`DualCode`) on a two-radical catalog with counters at 2. -/
theorem claim_C3_witness :
    (check_input sExample " AB ".toList cfgAlpha).1 = true ∧
    (check_input sExample " AB ".toList cfgAlpha).2.correct_count =
      sExample.correct_count + 1 ∧
    (check_input sExample " AB ".toList cfgAlpha).2.total_practice =
      sExample.total_practice + 1 ∧
    (check_input sExample " AB ".toList cfgAlpha).2.wrong_count =
      sExample.wrong_count ∧
    mapGet (check_input sExample " AB ".toList cfgAlpha).2.remaining_practice
      rGiap.text = some (2 - 1) :=
  claim_C3_correct_answer sExample " AB ".toList cfgAlpha rGiap 2
    (by decide) (by decide) (by decide) (by decide)

/-- C4: on an incorrect, non-empty (after trim) answer with in-range
`current_index`, `check_input` returns `false`, increments `wrong_count`
and `total_practice` by 1, leaves `correct_count` unchanged, and raises
the current radical's `remaining_practice` by exactly the configured
penalty. -/
theorem claim_C4_wrong_answer (s : GameState) (input : Str) (config : GameConfig)
    (r : Radical) (c : Nat)
    (h_r : s.radicals[s.current_radical]? = some r)
    (h_inp : trimChars input ≠ [])
    (h_c : mapGet s.remaining_practice r.text = some c)
    (h_m : matchesRadical config r (strToLower (trimChars input)) = false) :
    (check_input s input config).1 = false ∧
    (check_input s input config).2.wrong_count = s.wrong_count + 1 ∧
    (check_input s input config).2.total_practice = s.total_practice + 1 ∧
    (check_input s input config).2.correct_count = s.correct_count ∧
    mapGet (check_input s input config).2.remaining_practice r.text =
      some (c + config.penalty) := by
  rw [check_input_inRange config h_r h_inp]
  simp only [h_m, Bool.false_eq_true, if_false]
  refine ⟨trivial, trivial, trivial, trivial, ?_⟩
  exact mapGet_mapModify_self _ _ _ h_c

/-- Witness for C4, with the spec's example numbers: penalty 4 and a
counter at 2 yield 6 after a wrong answer. -/
theorem claim_C4_witness :
    (check_input sExample "x".toList cfgAlpha).1 = false ∧
    (check_input sExample "x".toList cfgAlpha).2.wrong_count =
      sExample.wrong_count + 1 ∧
    (check_input sExample "x".toList cfgAlpha).2.total_practice =
      sExample.total_practice + 1 ∧
    (check_input sExample "x".toList cfgAlpha).2.correct_count =
      sExample.correct_count ∧
    mapGet (check_input sExample "x".toList cfgAlpha).2.remaining_practice
      rGiap.text = some (2 + cfgAlpha.penalty) :=
  claim_C4_wrong_answer sExample "x".toList cfgAlpha rGiap 2
    (by decide) (by decide) (by decide) (by decide)

/-- C8: `progress()` returns `(completed, total)` with
`completed = correct_count + wrong_count` and `total = completed + sum of
remaining counters`; and the total is a live recompute: a wrong answer
(penalty `p`) raises the future total by `1 + p`. -/
theorem claim_C8_progress (s : GameState) :
    progress s =
      (s.correct_count + s.wrong_count,
        s.correct_count + s.wrong_count + (s.remaining_practice.map (·.2)).sum) ∧
    ∀ (input : Str) (config : GameConfig) (r : Radical) (c : Nat),
      s.radicals[s.current_radical]? = some r →
      trimChars input ≠ [] →
      mapGet s.remaining_practice r.text = some c →
      matchesRadical config r (strToLower (trimChars input)) = false →
      (progress (check_input s input config).2).2 =
        (progress s).2 + 1 + config.penalty := by
  constructor
  · simp only [progress, Prod.mk.injEq]
    exact ⟨trivial, by omega⟩
  · intro input config r c h_r h_inp h_c h_m
    rw [check_input_inRange config h_r h_inp]
    simp only [h_m, Bool.false_eq_true, if_false, progress]
    have hsum : ((mapModify s.remaining_practice r.text
          (fun x => x + config.penalty)).map (·.2)).sum + c =
        (s.remaining_practice.map (·.2)).sum + (c + config.penalty) :=
      sum_mapModify s.remaining_practice r.text (fun x => x + config.penalty) h_c
    omega

/-- Witness for C8: the live-recompute conjunct instantiated at a
concrete wrong answer with penalty 4. -/
theorem claim_C8_witness :
    (progress sExample =
      (sExample.correct_count + sExample.wrong_count,
        sExample.correct_count + sExample.wrong_count +
          (sExample.remaining_practice.map (·.2)).sum)) ∧
    (progress (check_input sExample "x".toList cfgAlpha).2).2 =
      (progress sExample).2 + 1 + cfgAlpha.penalty :=
  ⟨(claim_C8_progress sExample).1,
    (claim_C8_progress sExample).2 "x".toList cfgAlpha rGiap 2
      (by decide) (by decide) (by decide) (by decide)⟩

/-- C6 counterexample: the claim also asserts that the stored feedback is
unchanged by an empty-input call, but `check_input` overwrites
`last_error` with the fixed empty-input message; starting from
`last_error = none` the field changes. -/
theorem claim_C6_counterexample :
    (check_input sExample [] cfgAlpha).2.last_error ≠ sExample.last_error := by
  decide

/-- C6 (amended): an input that is empty after trimming returns
`is_correct = false` and leaves every field unchanged except the stored
feedback, which is set to the fixed empty-input message (so counters,
remaining counts, history and `last_big_code` are untouched); from the
second call on, repeated calls leave the whole state unchanged. -/
theorem claim_C6_empty_input (s : GameState) (input : Str) (config : GameConfig)
    (h : trimChars input = []) :
    check_input s input config =
      (false, { s with last_error := some Feedback.emptyInput }) ∧
    (check_input (check_input s input config).2 input config).2 =
      (check_input s input config).2 := by
  have h1 : (trimChars input).isEmpty = true := by simp [h]
  have hfirst : check_input s input config =
      (false, { s with last_error := some Feedback.emptyInput }) := by
    simp only [check_input, h1, if_true]
  refine ⟨hfirst, ?_⟩
  rw [hfirst]
  simp only [check_input, h1, if_true]

/-- Witness for C6: the amended statement at a concrete state and the
empty input. -/
theorem claim_C6_witness :
    (check_input sExample [] cfgAlpha =
      (false, { sExample with last_error := some Feedback.emptyInput })) ∧
    (check_input (check_input sExample [] cfgAlpha).2 [] cfgAlpha).2 =
      (check_input sExample [] cfgAlpha).2 :=
  claim_C6_empty_input sExample [] cfgAlpha (by decide)

/-- `check_input` either leaves the recent history unchanged or pushes
one text through `pushRecent`. -/
theorem check_input_recent (s : GameState) (input : Str) (config : GameConfig) :
    (check_input s input config).2.recent_radicals = s.recent_radicals ∨
    ∃ t, (check_input s input config).2.recent_radicals =
      pushRecent s.recent_radicals t := by
  simp only [check_input]
  split
  · left; rfl
  · split
    · split
      · right; exact ⟨_, rfl⟩
      · right; exact ⟨_, rfl⟩
    · left; rfl

/-- `next_radical` either leaves the recent history unchanged or pushes
one text through `pushRecent`. -/
theorem next_radical_recent (s : GameState) (config : GameConfig) (k : Nat)
    (perm : List Nat) :
    (next_radical s config k perm).2.recent_radicals = s.recent_radicals ∨
    ∃ t, (next_radical s config k perm).2.recent_radicals =
      pushRecent s.recent_radicals t := by
  simp only [next_radical]
  split
  · left; rfl
  · split
    · split
      · right; exact ⟨_, rfl⟩
      · left; rfl
    · left; rfl

/-- One operation preserves the length-6 bound on the recent history. -/
theorem applyOp_recent_le (s : GameState) (op : GameOp)
    (h : s.recent_radicals.length ≤ 6) :
    (applyOp s op).recent_radicals.length ≤ 6 := by
  cases op with
  | check input config =>
    rcases check_input_recent s input config with he | ⟨t, he⟩
    · simp only [applyOp, he]; exact h
    · simp only [applyOp, he]; exact length_pushRecent_le t h
  | advance config k perm =>
    rcases next_radical_recent s config k perm with he | ⟨t, he⟩
    · simp only [applyOp, he]; exact h
    · simp only [applyOp, he]; exact length_pushRecent_le t h

/-- C5: starting from an empty history, after any sequence of
`check_input` / `next_radical` calls the recent history has length at
most 6. -/
theorem claim_C5_recent_bounded (s : GameState) (ops : List GameOp)
    (h : s.recent_radicals = []) :
    (runOps s ops).recent_radicals.length ≤ 6 := by
  have key : ∀ (ops : List GameOp) (s : GameState),
      s.recent_radicals.length ≤ 6 → (runOps s ops).recent_radicals.length ≤ 6 := by
    intro ops
    induction ops with
    | nil => intro s hs; simpa [runOps] using hs
    | cons op rest ih =>
      intro s hs
      simp only [runOps, List.foldl_cons]
      exact ih (applyOp s op) (applyOp_recent_le s op hs)
  exact key ops s (by simp [h])

/-- Witness for C5: a concrete eight-operation session starting from the
empty history. -/
theorem claim_C5_witness :
    (runOps sExample
      [.check "x".toList cfgAlpha, .advance cfgAlpha 3 [],
       .check "ab".toList cfgAlpha, .advance cfgAlpha 4 [],
       .check "cd".toList cfgAlpha, .advance cfgAlpha 5 [],
       .check "".toList cfgAlpha, .advance cfgAlpha 6 []]).recent_radicals.length ≤ 6 :=
  claim_C5_recent_bounded sExample _ (by decide)

theorem relaxedPred_of_retainPred {s : GameState} {k i : Nat}
    (h : retainPred s k i = true) : relaxedPred s i = true := by
  unfold retainPred at h
  unfold relaxedPred
  cases hg : s.radicals[i]? with
  | none => rw [hg] at h; simp at h
  | some radical =>
    rw [hg] at h
    simp only [Bool.and_eq_true] at h
    exact h.1

theorem relaxedPred_iff {s : GameState} {i : Nat} :
    relaxedPred s i = true ↔
      ∃ r, s.radicals[i]? = some r ∧ hasRemaining s r.text = true := by
  unfold relaxedPred
  cases hg : s.radicals[i]? with
  | none => simp
  | some radical => simp

/-- Every member of the filtered candidate list has remaining work. -/
theorem mem_nextCandidates_relaxed {s : GameState} {config : GameConfig}
    {k i : Nat} {perm : List Nat}
    (h : i ∈ nextCandidates s config k perm) : relaxedPred s i = true := by
  unfold nextCandidates at h
  by_cases hc : ((baseCandidates s config perm).filter (retainPred s k)).isEmpty
  · rw [if_pos hc] at h
    exact (List.mem_filter.mp h).2
  · rw [if_neg hc] at h
    exact relaxedPred_of_retainPred (List.mem_filter.mp h).2

/-- The filtered candidate list is non-empty exactly when some index has
remaining work. -/
theorem nextCandidates_ne_nil_iff {s : GameState} {config : GameConfig}
    {k : Nat} {perm : List Nat} :
    nextCandidates s config k perm ≠ [] ↔ ∃ i, relaxedPred s i = true := by
  constructor
  · intro h
    cases hc : nextCandidates s config k perm with
    | nil => exact absurd hc h
    | cons i tl =>
      exact ⟨i, mem_nextCandidates_relaxed (by rw [hc]; exact List.mem_cons_self i tl)⟩
  · rintro ⟨i, hi⟩
    obtain ⟨r, hr, _⟩ := relaxedPred_iff.mp hi
    have hlt : i < s.radicals.length := (List.getElem?_eq_some_iff.mp hr).1
    have hmem : i ∈ (List.range s.radicals.length).filter (relaxedPred s) :=
      List.mem_filter.mpr ⟨List.mem_range.mpr hlt, hi⟩
    unfold nextCandidates
    by_cases hc : ((baseCandidates s config perm).filter (retainPred s k)).isEmpty
    · rw [if_pos hc]
      intro hnil
      rw [hnil] at hmem
      simp at hmem
    · rw [if_neg hc]
      exact List.isEmpty_eq_false.mp (Bool.not_eq_true _ ▸ (by simpa using hc))

/-- Case characterization of `next_radical`: either it selects the head
of the filtered candidates (returning true, with the counters untouched),
or it returns `(false, s)` because the catalog is empty or the filtered
candidates are empty. -/
theorem next_radical_spec (s : GameState) (config : GameConfig) (k : Nat)
    (perm : List Nat) :
    (∃ i, (nextCandidates s config k perm).head? = some i ∧
        (next_radical s config k perm).1 = true ∧
        (next_radical s config k perm).2.current_radical = i ∧
        (next_radical s config k perm).2.remaining_practice = s.remaining_practice) ∨
    (next_radical s config k perm = (false, s) ∧
      (s.radicals.isEmpty = true ∨ (nextCandidates s config k perm).head? = none)) := by
  unfold next_radical
  split
  · next hE => right; exact ⟨rfl, Or.inl (by simpa using hE)⟩
  · next hE =>
    split
    · next i hh =>
      split
      · next r hg => left; exact ⟨i, hh, rfl, rfl, rfl⟩
      · next hg => left; exact ⟨i, hh, rfl, rfl, rfl⟩
    · next hh => right; exact ⟨rfl, Or.inr hh⟩

theorem head?_nextCandidates_mem {s : GameState} {config : GameConfig}
    {k i : Nat} {perm : List Nat}
    (h : (nextCandidates s config k perm).head? = some i) :
    i ∈ nextCandidates s config k perm :=
  List.mem_of_mem_head? (Option.mem_def.mpr h)

/-- C1: `next_radical` returns true exactly when some catalog radical has
`remaining_practice > 0` (the relaxed filter of step 4 cannot be empty
while work remains), and whenever it returns false the state is left
completely unchanged (so false with no state change iff no work remains
or the catalog is empty). -/
theorem claim_C1_advance_total (s : GameState) (config : GameConfig)
    (k : Nat) (perm : List Nat) :
    ((next_radical s config k perm).1 = true ↔
      ∃ r ∈ s.radicals, hasRemaining s r.text = true) ∧
    ((next_radical s config k perm).1 = false →
      (next_radical s config k perm).2 = s) := by
  have hiff : (∃ i, relaxedPred s i = true) ↔
      ∃ r ∈ s.radicals, hasRemaining s r.text = true := by
    constructor
    · rintro ⟨i, hi⟩
      obtain ⟨r, hr, hrem⟩ := relaxedPred_iff.mp hi
      exact ⟨r, List.getElem?_mem hr, hrem⟩
    · rintro ⟨r, hmem, hrem⟩
      obtain ⟨i, hi⟩ := List.getElem?_of_mem hmem
      exact ⟨i, relaxedPred_iff.mpr ⟨r, hi, hrem⟩⟩
  rcases next_radical_spec s config k perm with
    ⟨i, hh, htrue, _, _⟩ | ⟨hres, hcause⟩
  · constructor
    · rw [htrue]
      simp only [true_iff]
      rw [← hiff]
      exact ⟨i, mem_nextCandidates_relaxed (head?_nextCandidates_mem hh)⟩
    · intro hfalse
      rw [htrue] at hfalse
      cases hfalse
  · constructor
    · rw [hres]
      simp only [Bool.false_eq_true, false_iff]
      rw [← hiff]
      rintro ⟨i, hi⟩
      rcases hcause with hE | hnone
      · have hnil : s.radicals = [] := List.isEmpty_iff.mp hE
        obtain ⟨r, hr, _⟩ := relaxedPred_iff.mp hi
        rw [hnil] at hr
        simp at hr
      · exact absurd (List.head?_eq_none_iff.mp hnone)
          (nextCandidates_ne_nil_iff.mpr ⟨i, hi⟩)
    · intro _
      rw [hres]

/-- Witness for C1 (an implication occurs inside the statement): the
conjunction instantiated at a concrete fresh state. -/
theorem claim_C1_witness :
    ((next_radical sExample cfgAlpha 3 []).1 = true ↔
      ∃ r ∈ sExample.radicals, hasRemaining sExample r.text = true) ∧
    ((next_radical sExample cfgAlpha 3 []).1 = false →
      (next_radical sExample cfgAlpha 3 []).2 = sExample) :=
  claim_C1_advance_total sExample cfgAlpha 3 []

/-- C2: whenever `next_radical` returns true, the selected radical (the
one at the new `current_index`) had `remaining_practice > 0` before the
call (and `next_radical` does not change the counters, so also after). -/
theorem claim_C2_never_selects_exhausted (s : GameState) (config : GameConfig)
    (k : Nat) (perm : List Nat)
    (h : (next_radical s config k perm).1 = true) :
    ∃ r, s.radicals[(next_radical s config k perm).2.current_radical]? = some r ∧
      hasRemaining s r.text = true ∧
      (next_radical s config k perm).2.remaining_practice = s.remaining_practice := by
  rcases next_radical_spec s config k perm with
    ⟨i, hh, _, hcur, hrem⟩ | ⟨hres, _⟩
  · obtain ⟨r, hr, hpos⟩ :=
      relaxedPred_iff.mp (mem_nextCandidates_relaxed (head?_nextCandidates_mem hh))
    rw [hcur]
    exact ⟨r, hr, hpos, hrem⟩
  · rw [hres] at h
    cases h

/-- Witness for C2: a concrete call that returns true selects a radical
with a positive counter. -/
theorem claim_C2_witness :
    ∃ r, sExample.radicals[(next_radical sExample cfgAlpha 3 []).2.current_radical]? =
        some r ∧
      hasRemaining sExample r.text = true ∧
      (next_radical sExample cfgAlpha 3 []).2.remaining_practice =
        sExample.remaining_practice :=
  claim_C2_never_selects_exhausted sExample cfgAlpha 3 [] (by decide)

/-- An out-of-range `current_radical` is equivalent, for the pure
evaluation, to the clamped last valid index. -/
theorem check_input_core_clamp (s : GameState) (input : Str) (config : GameConfig)
    (hne : s.radicals ≠ []) (hge : s.radicals.length ≤ s.current_radical) :
    check_input_core s input config =
      check_input_core { s with current_radical := s.radicals.length - 1 }
        input config := by
  have hlen : 0 < s.radicals.length := List.length_pos.mpr hne
  have hmin1 : min s.current_radical (s.radicals.length - 1) =
      s.radicals.length - 1 := by omega
  have hmin2 : min (s.radicals.length - 1) (s.radicals.length - 1) =
      s.radicals.length - 1 := Nat.min_self _
  have hstats : get_frequency_stats { s with current_radical := s.radicals.length - 1 } =
      get_frequency_stats s := rfl
  simp only [check_input_core, hmin1, hmin2, hstats]

/-- C7: the evaluator is total (never panics, by construction of the
embedding): with an empty catalog it returns `is_correct = false` and the
fixed "nothing to practice" message for every input, and `check_input`
then mutates no counter, no remaining count, no history and no
`last_big_code`; with a non-empty catalog and an out-of-range
`current_index` the evaluation is that of the index clamped to the last
valid catalog position. -/
theorem claim_C7_defensive (s : GameState) (input : Str) (config : GameConfig) :
    (s.radicals = [] →
      check_input_core s input config = (false, some Feedback.noRadicals) ∧
      (check_input s input config).1 = false ∧
      (check_input s input config).2.correct_count = s.correct_count ∧
      (check_input s input config).2.wrong_count = s.wrong_count ∧
      (check_input s input config).2.total_practice = s.total_practice ∧
      (check_input s input config).2.remaining_practice = s.remaining_practice ∧
      (check_input s input config).2.recent_radicals = s.recent_radicals ∧
      (check_input s input config).2.last_big_code = s.last_big_code) ∧
    (s.radicals ≠ [] → s.radicals.length ≤ s.current_radical →
      check_input_core s input config =
        check_input_core { s with current_radical := s.radicals.length - 1 }
          input config) := by
  constructor
  · intro h
    have hE : s.radicals.isEmpty = true := by simp [h]
    have hcore : ∀ inp, check_input_core s inp config =
        (false, some Feedback.noRadicals) := by
      intro inp
      simp [check_input_core, hE]
    refine ⟨hcore input, ?_⟩
    by_cases hin : (trimChars input).isEmpty
    · simp [check_input, hin]
    · have hnone : s.radicals[s.current_radical]? = none := by simp [h]
      simp [check_input, hin, hnone, hcore]
  · exact check_input_core_clamp s input config

/-- Witness for C7: both implications discharged, at an empty-catalog
state and at an out-of-range state respectively. -/
theorem claim_C7_witness :
    (check_input_core sEmpty "ab".toList cfgAlpha =
       (false, some Feedback.noRadicals) ∧
     (check_input sEmpty "ab".toList cfgAlpha).1 = false ∧
     (check_input sEmpty "ab".toList cfgAlpha).2.correct_count =
       sEmpty.correct_count ∧
     (check_input sEmpty "ab".toList cfgAlpha).2.wrong_count =
       sEmpty.wrong_count ∧
     (check_input sEmpty "ab".toList cfgAlpha).2.total_practice =
       sEmpty.total_practice ∧
     (check_input sEmpty "ab".toList cfgAlpha).2.remaining_practice =
       sEmpty.remaining_practice ∧
     (check_input sEmpty "ab".toList cfgAlpha).2.recent_radicals =
       sEmpty.recent_radicals ∧
     (check_input sEmpty "ab".toList cfgAlpha).2.last_big_code =
       sEmpty.last_big_code) ∧
    check_input_core sOut "ab".toList cfgAlpha =
      check_input_core { sOut with current_radical := sOut.radicals.length - 1 }
        "ab".toList cfgAlpha :=
  ⟨(claim_C7_defensive sEmpty "ab".toList cfgAlpha).1 rfl,
   (claim_C7_defensive sOut "ab".toList cfgAlpha).2 (by decide) (by decide)⟩

/-- C10: with a non-empty catalog, an out-of-range `current_index` and a
non-empty (after trim) input, `check_input` stores the feedback computed
by the core against the clamped (last) catalog radical and returns the
core's comparison result, while every other field — counters, remaining
counts, history, `last_big_code` — stays unchanged: the success-path side
effects are silently skipped. -/
theorem claim_C10_out_of_range (s : GameState) (input : Str) (config : GameConfig)
    (hne : s.radicals ≠ []) (hge : s.radicals.length ≤ s.current_radical)
    (h_inp : trimChars input ≠ []) :
    check_input s input config =
      ((check_input_core s (trimChars input) config).1,
        { s with last_error := (check_input_core s (trimChars input) config).2 }) ∧
    check_input_core s (trimChars input) config =
      check_input_core { s with current_radical := s.radicals.length - 1 }
        (trimChars input) config := by
  refine ⟨?_, check_input_core_clamp s (trimChars input) config hne hge⟩
  have h1 : (trimChars input).isEmpty = false := trimChars_not_isEmpty h_inp
  have hnone : s.radicals[s.current_radical]? = none := List.getElem?_eq_none hge
  simp only [check_input, h1, Bool.false_eq_true, if_false, hnone]

/-- Witness for C10: the out-of-range state with a concrete non-empty
input. -/
theorem claim_C10_witness :
    (check_input sOut " AB ".toList cfgAlpha =
      ((check_input_core sOut (trimChars " AB ".toList) cfgAlpha).1,
        { sOut with
          last_error := (check_input_core sOut (trimChars " AB ".toList) cfgAlpha).2 })) ∧
    check_input_core sOut (trimChars " AB ".toList) cfgAlpha =
      check_input_core { sOut with current_radical := sOut.radicals.length - 1 }
        (trimChars " AB ".toList) cfgAlpha :=
  claim_C10_out_of_range sOut " AB ".toList cfgAlpha
    (by decide) (by decide) (by decide)

theorem strCmp_nil_ne_gt (c : Str) : strCmp [] c ≠ .gt := by
  cases c with
  | nil => simp [strCmp]
  | cons z zs => simp [strCmp]

theorem strCmp_trans_ne_gt (a : Str) : ∀ (b c : Str),
    strCmp a b ≠ .gt → strCmp b c ≠ .gt → strCmp a c ≠ .gt := by
  induction a with
  | nil => intro b c _ _; exact strCmp_nil_ne_gt c
  | cons x xs ih =>
    intro b c hab hbc
    cases b with
    | nil => exact absurd rfl hab
    | cons y ys =>
      cases c with
      | nil => exact absurd rfl hbc
      | cons z zs =>
        simp only [strCmp] at hab hbc ⊢
        cases hxy : compare x.toNat y.toNat with
        | gt => simp [hxy] at hab
        | lt =>
          have hx : x.toNat < y.toNat := Nat.compare_eq_lt.mp hxy
          cases hyz : compare y.toNat z.toNat with
          | gt => simp [hyz] at hbc
          | lt =>
            have hy : y.toNat < z.toNat := Nat.compare_eq_lt.mp hyz
            have hxz : compare x.toNat z.toNat = .lt :=
              Nat.compare_eq_lt.mpr (Nat.lt_trans hx hy)
            simp [hxz]
          | eq =>
            have hy : y.toNat = z.toNat := Nat.compare_eq_eq.mp hyz
            have hxz : compare x.toNat z.toNat = .lt :=
              Nat.compare_eq_lt.mpr (hy ▸ hx)
            simp [hxz]
        | eq =>
          have hx : x.toNat = y.toNat := Nat.compare_eq_eq.mp hxy
          simp only [hxy] at hab
          cases hyz : compare y.toNat z.toNat with
          | gt => simp [hyz] at hbc
          | lt =>
            have hy : y.toNat < z.toNat := Nat.compare_eq_lt.mp hyz
            have hxz : compare x.toNat z.toNat = .lt :=
              Nat.compare_eq_lt.mpr (hx ▸ hy)
            simp [hxz]
          | eq =>
            have hy : y.toNat = z.toNat := Nat.compare_eq_eq.mp hyz
            have hxz : compare x.toNat z.toNat = .eq :=
              Nat.compare_eq_eq.mpr (hx.trans hy)
            simp only [hyz] at hbc
            simp only [hxz]
            exact ih ys zs hab hbc

theorem strCmp_total_ne_gt (a : Str) : ∀ (b : Str),
    strCmp a b ≠ .gt ∨ strCmp b a ≠ .gt := by
  induction a with
  | nil => intro b; left; exact strCmp_nil_ne_gt b
  | cons x xs ih =>
    intro b
    cases b with
    | nil => right; exact strCmp_nil_ne_gt (x :: xs)
    | cons y ys =>
      simp only [strCmp]
      cases hxy : compare x.toNat y.toNat with
      | lt =>
        have hyx : compare y.toNat x.toNat = .gt :=
          Nat.compare_eq_gt.mpr (Nat.compare_eq_lt.mp hxy)
        left; simp [hyx]
      | gt =>
        have hyx : compare y.toNat x.toNat = .lt :=
          Nat.compare_eq_lt.mpr (Nat.compare_eq_gt.mp hxy)
        right; simp [hyx]
      | eq =>
        have hyx : compare y.toNat x.toNat = .eq :=
          Nat.compare_eq_eq.mpr (Nat.compare_eq_eq.mp hxy).symm
        simp only [hyx]
        exact ih ys

theorem ordering_bne_gt (x : Ordering) : ((x != Ordering.gt) = true) ↔ x ≠ .gt := by
  cases x <;> decide

theorem keyboardCmp_ne_gt_iff (a b : Radical) :
    keyboardCmp a b ≠ .gt ↔ keyboardSpecLe a b := by
  unfold keyboardCmp keyboardSpecLe
  by_cases h : firstCharKeyPos a.code = firstCharKeyPos b.code
  · rw [if_neg (by simp [h])]
    simp [h]
  · rw [if_pos h]
    constructor
    · intro hcmp
      left
      rcases Nat.lt_or_ge (firstCharKeyPos a.code) (firstCharKeyPos b.code) with
        hlt | hge
      · exact hlt
      · have hgt : firstCharKeyPos b.code < firstCharKeyPos a.code :=
          Nat.lt_of_le_of_ne hge (fun he => h he.symm)
        exact absurd (Nat.compare_eq_gt.mpr hgt) hcmp
    · rintro (hlt | ⟨heq, _⟩)
      · rw [Nat.compare_eq_lt.mpr hlt]
        simp
      · exact absurd heq h

theorem keyboardSpecLe_trans {a b c : Radical}
    (h1 : keyboardSpecLe a b) (h2 : keyboardSpecLe b c) : keyboardSpecLe a c := by
  rcases h1 with hlt1 | ⟨heq1, hs1⟩ <;> rcases h2 with hlt2 | ⟨heq2, hs2⟩
  · exact Or.inl (Nat.lt_trans hlt1 hlt2)
  · exact Or.inl (heq2 ▸ hlt1)
  · exact Or.inl (heq1 ▸ hlt2)
  · exact Or.inr ⟨heq1.trans heq2, strCmp_trans_ne_gt a.code b.code c.code hs1 hs2⟩

theorem keyboardSpecLe_total (a b : Radical) :
    keyboardSpecLe a b ∨ keyboardSpecLe b a := by
  rcases Nat.lt_trichotomy (firstCharKeyPos a.code) (firstCharKeyPos b.code) with
    hlt | heq | hgt
  · exact Or.inl (Or.inl hlt)
  · rcases strCmp_total_ne_gt a.code b.code with hs | hs
    · exact Or.inl (Or.inr ⟨heq, hs⟩)
    · exact Or.inr (Or.inr ⟨heq.symm, hs⟩)
  · exact Or.inr (Or.inl hgt)

/-- C9: the Keyboard ordering policy yields a permutation of the catalog
that is sorted by the `keyboardSpecLe` relation (keyboard position of the
lowercased first code character, ties broken lexicographically on the
full code), and any first character outside the keyboard sequence sorts
after every member of the sequence. -/
theorem claim_C9_keyboard_order (radicals : List Radical) :
    List.Perm (sortKeyboard radicals) radicals ∧
    (sortKeyboard radicals).Pairwise keyboardSpecLe ∧
    ∀ a b : Radical,
      (a.code.headD (Char.ofNat 0)).toLower ∈ keyboard_order →
      (b.code.headD (Char.ofNat 0)).toLower ∉ keyboard_order →
      firstCharKeyPos a.code < firstCharKeyPos b.code := by
  refine ⟨List.mergeSort_perm radicals _, ?_, ?_⟩
  · have htrans : ∀ a b c : Radical,
        (keyboardCmp a b != Ordering.gt) = true →
        (keyboardCmp b c != Ordering.gt) = true →
        (keyboardCmp a c != Ordering.gt) = true := by
      intro a b c h1 h2
      rw [ordering_bne_gt] at h1 h2 ⊢
      exact (keyboardCmp_ne_gt_iff a c).mpr
        (keyboardSpecLe_trans ((keyboardCmp_ne_gt_iff a b).mp h1)
          ((keyboardCmp_ne_gt_iff b c).mp h2))
    have htotal : ∀ a b : Radical,
        ((keyboardCmp a b != Ordering.gt) ||
          (keyboardCmp b a != Ordering.gt)) = true := by
      intro a b
      rcases keyboardSpecLe_total a b with h | h
      · rw [Bool.or_eq_true]
        exact Or.inl ((ordering_bne_gt _).mpr ((keyboardCmp_ne_gt_iff a b).mpr h))
      · rw [Bool.or_eq_true]
        exact Or.inr ((ordering_bne_gt _).mpr ((keyboardCmp_ne_gt_iff b a).mpr h))
    have hs := List.sorted_mergeSort htrans htotal radicals
    exact hs.imp (fun h => (keyboardCmp_ne_gt_iff _ _).mp ((ordering_bne_gt _).mp h))
  · intro a b ha hb
    simp only [firstCharKeyPos]
    have hbnone : keyboard_order.findIdx?
        (fun k => k == (b.code.headD (Char.ofNat 0)).toLower) = none := by
      rw [List.findIdx?_eq_none_iff]
      intro x hx
      by_contra hc
      rw [Bool.not_eq_false, beq_iff_eq] at hc
      exact hb (hc ▸ hx)
    have hasome : ∃ i, keyboard_order.findIdx?
        (fun k => k == (a.code.headD (Char.ofNat 0)).toLower) = some i ∧
        i < keyboard_order.length := by
      have := @List.findIdx?_eq_some_of_exists Char keyboard_order
        (fun k => k == (a.code.headD (Char.ofNat 0)).toLower)
        ⟨(a.code.headD (Char.ofNat 0)).toLower, ha, by simp⟩
      refine ⟨_, this, ?_⟩
      exact (List.findIdx?_eq_some_iff_findIdx_eq.mp this).1
    obtain ⟨i, hi, hilt⟩ := hasome
    rw [hi, hbnone]
    simp only [Option.getD_some, Option.getD_none]
    have : keyboard_order.length = 26 := by decide
    unfold USIZE_MAX
    omega

/-- Witness for C9: the conjunction instantiated at a concrete two-radical
catalog, with the outside-the-sequence conjunct discharged at concrete
radicals (first characters `a` and `1`). -/
theorem claim_C9_witness :
    List.Perm (sortKeyboard [rYi, rGiap]) [rYi, rGiap] ∧
    (sortKeyboard [rYi, rGiap]).Pairwise keyboardSpecLe ∧
    firstCharKeyPos rGiap.code < firstCharKeyPos rOutside.code :=
  ⟨(claim_C9_keyboard_order [rYi, rGiap]).1,
   (claim_C9_keyboard_order [rYi, rGiap]).2.1,
   (claim_C9_keyboard_order [rYi, rGiap]).2.2 rGiap rOutside
     (by decide) (by decide)⟩

end YuPractice
